import Mathlib

/-!
Verification of the BLAKE2Xs extendable-output function (blake2xs.go).

Shallow embedding notes:
- Bytes are modelled as Nat; byte strings as List Nat.
- Go uint64 arithmetic is Nat with explicit reduction mod 2^64; Go int is Int.
- The external blake2s package (the "fixed-output hash primitive" collaborator
  of the design) is modelled abstractly by a structure of two functions:
  whether blake2s.New accepts a given config, and the digest that an instance
  created from that config produces for the bytes written to it
  (Write then Sum).  A hash.Hash value rh is therefore represented by the pair
  of its creation config and the list of bytes written to it so far.
- Go pointer aliasing in NewXOF matters: rc.Tree is the same pointer as
  c.Tree when non-nil, so the NodeOffset update on the root config is visible
  through the caller's Config.  NewXOF therefore returns, besides the
  (optional) engine, the caller's Config as it stands after the call.
-/

namespace Blake2s

/-- blake2s.Size: the primitive's full digest size, 32 bytes. -/
def Size : Nat := 32

/-- blake2s.Tree: tree-hashing parameters accepted by the primitive. -/
structure Tree where
  fanout : Nat
  maxDepth : Nat
  leafSize : Nat
  nodeOffset : Nat
  nodeDepth : Nat
  innerHashSize : Nat
  isLastNode : Bool
deriving DecidableEq

/-- blake2s.Config: the configuration handed to blake2s.New. -/
structure Config where
  size : Nat
  key : List Nat
  salt : List Nat
  person : List Nat
  tree : Option Tree
deriving DecidableEq

/-- Abstract model of the blake2s collaborator: newOk tells whether
blake2s.New accepts a config; sum gives the digest that an instance built
from that config computes for the bytes written to it. -/
structure Primitive where
  newOk : Config → Bool
  sum : Config → List Nat → List Nat

end Blake2s

namespace Blake2xs

/-- Line 14: const UnknownSize = 1 shifted left by 16, minus 1. -/
def UnknownSize : Nat := 2 ^ 16 - 1

/-- 2^64, the modulus of Go uint64 arithmetic (NodeOffset is a uint64). -/
def U64 : Nat := 2 ^ 64

/-- Lines 18-24: type Config. -/
structure Config where
  size : Nat
  key : List Nat
  salt : List Nat
  person : List Nat
  tree : Option Blake2s.Tree
deriving DecidableEq

/-- Lines 26-33: type xof.  The root hash instance rh is represented by its
creation config rcfg together with the bytes msg written to it so far. -/
structure Xof where
  rcfg : Blake2s.Config
  msg : List Nat
  oc : Blake2s.Config
  h0 : Option (List Nat)
  x : List Nat
  px : Nat
  left : Int
deriving DecidableEq

/-- Lines 37-40: outSize := int(c.Size); if outSize == 0, outSize = UnknownSize. -/
def effLen (c : Config) : Nat := if c.size = 0 then UnknownSize else c.size

/-- Lines 48 and 51-56: the tree used for the root config, before the
NodeOffset update: the caller's tree when non-nil, else the default
Tree with Fanout 1 and MaxDepth 1 (all other fields zero). -/
def baseTree (c : Config) : Blake2s.Tree :=
  match c.tree with
  | some t => t
  | none =>
    { fanout := 1, maxDepth := 1, leafSize := 0, nodeOffset := 0,
      nodeDepth := 0, innerHashSize := 0, isLastNode := false }

/-- Line 57: rc.Tree.NodeOffset += uint64(outSize) << 32 (uint64 wraps). -/
def rootTree (c : Config) : Blake2s.Tree :=
  { baseTree c with
    nodeOffset := ((baseTree c).nodeOffset + (effLen c <<< 32)) % U64 }

/-- Lines 43-49 with the tree update of lines 51-57: the root hash config. -/
def rootCfg (c : Config) : Blake2s.Config :=
  { size := Blake2s.Size, key := c.key, salt := c.salt, person := c.person,
    tree := some (rootTree c) }

/-- Lines 60-73: the initial config for output hashes. -/
def outCfg (c : Config) : Blake2s.Config :=
  { size := Blake2s.Size, key := [], salt := c.salt, person := c.person,
    tree := some
      { fanout := 0, maxDepth := 0, leafSize := Blake2s.Size,
        nodeOffset := effLen c <<< 32, nodeDepth := 0,
        innerHashSize := Blake2s.Size, isLastNode := false } }

/-- The caller's Config after NewXOF returns.  In the Go source rc.Tree
aliases c.Tree when c.Tree is non-nil, so the increment of line 57 is
observable through the caller's pointer; when c.Tree is nil a fresh default
tree is allocated and the caller's Config is untouched. -/
def callerAfter (c : Config) : Config :=
  match c.tree with
  | some _ => { c with tree := some (rootTree c) }
  | none => c

/-- Lines 80-85: the engine returned on success. -/
def initXof (c : Config) : Xof :=
  { rcfg := rootCfg c, msg := [], oc := outCfg c, h0 := none,
    x := List.replicate Blake2s.Size 0, px := Blake2s.Size,
    left := (effLen c : Int) }

/-- Lines 36-86: NewXOF.  First component: the engine (none when blake2s.New
rejects the root config, line 75-78).  Second component: the caller's Config
after the call (see callerAfter). -/
def NewXOF (P : Blake2s.Primitive) (c : Config) : Option Xof × Config :=
  (if P.newOk (rootCfg c) then some (initXof c) else none, callerAfter c)

/-- Lines 88-93: (x *xof) Write.  Returns ((count, error), new state). -/
def Xof.write (s : Xof) (p : List Nat) : (Nat × Option String) × Xof :=
  match s.h0 with
  | some _ => ((0, some "blake2xs: cannot write after reading"), s)
  | none => ((p.length, none), { s with msg := s.msg ++ p })

/-- The two error outcomes of Read: io.EOF (line 102) and a blake2s.New
failure (line 112). -/
inductive ReadErr where
  | eof : ReadErr
  | newFailed : ReadErr
deriving DecidableEq

/-- Lines 106-109: if x.left < blake2s.Size, set x.oc.Size = uint8(x.left)
(x.left < 32 so the uint8 conversion is exact). -/
def adjustSize (s : Xof) : Xof :=
  if s.left < (Blake2s.Size : Int) then
    { s with oc := { s.oc with size := s.left.toNat } }
  else s

/-- Line 116: x.oc.Tree.NodeOffset++ (uint64 wraps). -/
def bump (c : Blake2s.Config) : Blake2s.Config :=
  { c with tree := c.tree.map fun t =>
      { t with nodeOffset := (t.nodeOffset + 1) % U64 } }

/-- Lines 104-118: the buffer refill step of Read.  When the buffer is not
exhausted the state is unchanged; otherwise the final-block size adjustment
is applied, a fresh primitive instance is created from the output config
(none on failure), the 32-byte root digest x.h0 is written into it, its
digest becomes the buffer, the NodeOffset is incremented and px reset. -/
def refill (P : Blake2s.Primitive) (s : Xof) : Option Xof :=
  if Blake2s.Size ≤ s.px then
    if P.newOk (adjustSize s).oc then
      some { adjustSize s with
             x := P.sum (adjustSize s).oc ((adjustSize s).h0.getD []),
             oc := bump (adjustSize s).oc,
             px := 0 }
    else none
  else some s

/-- Lines 119-122: serve one byte: advance px, decrement left. -/
def step (s : Xof) : Xof := { s with px := s.px + 1, left := s.left - 1 }

/-- Lines 100-124: the per-byte loop of Read, by the number of bytes still
requested.  Note line 101: the conjunct i != len(p) is always true inside
the loop, so a request for at least one more byte with left == 0 returns
io.EOF.  On a blake2s.New failure the returned state carries the size
adjustment already applied (line 108 precedes line 110). -/
def readLoop (P : Blake2s.Primitive) : Xof → Nat → List Nat × Option ReadErr × Xof
  | s, 0 => ([], none, s)
  | s, n + 1 =>
    if s.left = 0 then ([], some ReadErr.eof, s)
    else
      match refill P s with
      | none => ([], some ReadErr.newFailed, adjustSize s)
      | some s2 =>
        let r := readLoop P (step s2) n
        (s2.x.getD s2.px 0 :: r.1, r.2)

/-- Lines 96-99: lazy finalization of the root digest on first read. -/
def finalize (P : Blake2s.Primitive) (s : Xof) : Xof :=
  match s.h0 with
  | none => { s with h0 := some (P.sum s.rcfg s.msg) }
  | some _ => s

/-- Lines 95-125: (x *xof) Read for a buffer of length n.  Returns the bytes
produced, the error (none, io.EOF, or a propagated New failure) and the new
state.  The count nn of the source is the length of the first component. -/
def Xof.read (P : Blake2s.Primitive) (s : Xof) (n : Nat) :
    List Nat × Option ReadErr × Xof :=
  readLoop P (finalize P s) n

/-- The engine freshly constructed from c after writing message m. -/
def writtenXof (c : Config) (m : List Nat) : Xof :=
  (Xof.write (initXof c) m).2

/-- End-to-end output: construct with NewXOF, write m, read n bytes. -/
def xofOut (P : Blake2s.Primitive) (c : Config) (m : List Nat) (n : Nat) :
    List Nat :=
  match (NewXOF P c).1 with
  | none => []
  | some s => (Xof.read P (Xof.write s m).2 n).1

/-- Concatenated output of a sequence of reads with the given chunk sizes. -/
def readChunksOut (P : Blake2s.Primitive) : Xof → List Nat → List Nat
  | _, [] => []
  | s, k :: ks =>
    let r := Xof.read P s k
    r.1 ++ readChunksOut P r.2.2 ks

/-- Continuing a read result with k more requested bytes (used to state how
a longer read decomposes into a shorter one followed by a remainder). -/
def thenRead (P : Blake2s.Primitive) (k : Nat) :
    List Nat × Option ReadErr × Xof → List Nat × Option ReadErr × Xof
  | (o, none, s1) =>
    let r := readLoop P s1 k
    (o ++ r.1, r.2)
  | (o, some e, s1) => (o, some e, s1)

/-- The output config used for the very first generated block: the template
with the final-block size adjustment applied when the whole declared output
is shorter than one full digest. -/
def firstBlockCfg (c : Config) : Blake2s.Config :=
  if ((effLen c : Int)) < (Blake2s.Size : Int) then
    { outCfg c with size := effLen c }
  else outCfg c

/-- The root digest of message m under configuration c. -/
def rootDigest (P : Blake2s.Primitive) (c : Config) (m : List Nat) : List Nat :=
  P.sum (rootCfg c) m

/-- The first output block: the leaf digest of the root digest. -/
def firstBlock (P : Blake2s.Primitive) (c : Config) (m : List Nat) : List Nat :=
  P.sum (firstBlockCfg c) (rootDigest P c m)

/-- State invariant: the buffer cursor never passes the digest size and the
remaining count never goes negative. -/
abbrev Inv (s : Xof) : Prop := s.px ≤ Blake2s.Size ∧ 0 ≤ s.left

/-! Concrete instantiation used by the witnesses: a small executable stand-in
for the collaborator, accepting every config. -/

/-- Accumulator mix used by the executable stand-in primitive. -/
def mix (l : List Nat) : Nat := l.foldl (fun a b => (a * 131 + b + 1) % 1000003) 7

/-- Injective-ish encoding of tree parameters for the stand-in primitive. -/
def encTree (t : Blake2s.Tree) : List Nat :=
  [t.fanout, t.maxDepth, t.leafSize, t.nodeOffset, t.nodeDepth,
   t.innerHashSize, cond t.isLastNode 1 0]

/-- Injective-ish encoding of a primitive config for the stand-in primitive. -/
def encCfg (c : Blake2s.Config) : List Nat :=
  (c.size :: c.key) ++ (301 :: c.salt) ++ (302 :: c.person) ++
    (303 :: (match c.tree with | none => [] | some t => encTree t))

/-- Digest function of the stand-in primitive. -/
def toySum (c : Blake2s.Config) (m : List Nat) : List Nat :=
  (List.range c.size).map fun i => (mix (encCfg c ++ (304 :: m)) + 37 * i) % 256

/-- The executable stand-in primitive: accepts every config. -/
def toyP : Blake2s.Primitive := { newOk := fun _ => true, sum := toySum }

/-- Witness message. -/
def wM : List Nat := [1, 2]

/-- Witness config with unknown (sentinel) output size. -/
def wC : Config := { size := 0, key := [], salt := [], person := [], tree := none }

/-- Witness config with declared size 3. -/
def wC1 : Config := { size := 3, key := [], salt := [], person := [], tree := none }

/-- A second, syntactically separate copy of the declared-size-3 config. -/
def wC1b : Config := { size := 3, key := [], salt := [], person := [], tree := none }

/-- Witness config with declared size 5. -/
def wC2 : Config := { size := 5, key := [], salt := [], person := [], tree := none }

/-- Witness config carrying an explicit tree (for the aliasing analysis). -/
def wCT : Config :=
  { size := 64, key := [], salt := [], person := [],
    tree := some { fanout := 1, maxDepth := 1, leafSize := 0, nodeOffset := 0,
                   nodeDepth := 0, innerHashSize := 0, isLastNode := false } }

/-- Witness engine: constructed from wC, written with wM, root finalized. -/
def wS : Xof := finalize toyP (writtenXof wC wM)

/-- Witness root digest matching wS. -/
def wD : List Nat := toyP.sum (rootCfg wC) wM

/-! Basic component lemmas about the state transformers. -/

theorem adjustSize_px (s : Xof) : (adjustSize s).px = s.px := by
  unfold adjustSize; split <;> rfl

theorem adjustSize_left (s : Xof) : (adjustSize s).left = s.left := by
  unfold adjustSize; split <;> rfl

theorem adjustSize_h0 (s : Xof) : (adjustSize s).h0 = s.h0 := by
  unfold adjustSize; split <;> rfl

theorem adjustSize_msg (s : Xof) : (adjustSize s).msg = s.msg := by
  unfold adjustSize; split <;> rfl

theorem adjustSize_oc (s : Xof) :
    (adjustSize s).oc =
      if s.left < (Blake2s.Size : Int) then { s.oc with size := s.left.toNat }
      else s.oc := by
  unfold adjustSize; split <;> rfl

theorem refill_of_lt (P : Blake2s.Primitive) (s : Xof)
    (h : s.px < Blake2s.Size) : refill P s = some s := by
  unfold refill; rw [if_neg (by omega)]

theorem refill_of_ge (P : Blake2s.Primitive) (s : Xof)
    (h : Blake2s.Size ≤ s.px) (hok : P.newOk (adjustSize s).oc = true) :
    refill P s =
      some { adjustSize s with
             x := P.sum (adjustSize s).oc ((adjustSize s).h0.getD []),
             oc := bump (adjustSize s).oc, px := 0 } := by
  unfold refill; rw [if_pos h, if_pos hok]

theorem refill_some_fields (P : Blake2s.Primitive) (s s2 : Xof)
    (h : refill P s = some s2) :
    s2.left = s.left ∧ s2.h0 = s.h0 ∧ s2.msg = s.msg ∧ s2.rcfg = s.rcfg := by
  unfold refill at h
  split at h
  · split at h
    · cases h
      refine ⟨?_, ?_, ?_, ?_⟩ <;> (unfold adjustSize; split <;> rfl)
    · cases h
  · cases h
    exact ⟨rfl, rfl, rfl, rfl⟩

theorem refill_px_cases (P : Blake2s.Primitive) (s s2 : Xof)
    (h : refill P s = some s2) :
    s2.px = 0 ∨ (s2 = s ∧ s.px < Blake2s.Size) := by
  unfold refill at h
  split at h
  · split at h
    · cases h; exact Or.inl rfl
    · cases h
  · cases h
    exact Or.inr ⟨rfl, by omega⟩

theorem refill_total (P : Blake2s.Primitive) (hok : ∀ g, P.newOk g = true)
    (s : Xof) : ∃ s2, refill P s = some s2 := by
  by_cases hp : Blake2s.Size ≤ s.px
  · exact ⟨_, refill_of_ge P s hp (hok _)⟩
  · exact ⟨s, refill_of_lt P s (by omega)⟩

/-! Step lemmas for the read loop. -/

theorem readLoop_zero (P : Blake2s.Primitive) (s : Xof) :
    readLoop P s 0 = ([], none, s) := rfl

theorem readLoop_eof (P : Blake2s.Primitive) (s : Xof) (n : Nat)
    (h : s.left = 0) : readLoop P s (n + 1) = ([], some ReadErr.eof, s) := by
  unfold readLoop; rw [if_pos h]

theorem readLoop_fail (P : Blake2s.Primitive) (s : Xof) (n : Nat)
    (h : s.left ≠ 0) (hr : refill P s = none) :
    readLoop P s (n + 1) = ([], some ReadErr.newFailed, adjustSize s) := by
  unfold readLoop; rw [if_neg h, hr]

theorem readLoop_serve (P : Blake2s.Primitive) (s s2 : Xof) (n : Nat)
    (h : s.left ≠ 0) (hr : refill P s = some s2) :
    readLoop P s (n + 1) =
      (s2.x.getD s2.px 0 :: (readLoop P (step s2) n).1,
        (readLoop P (step s2) n).2) := by
  conv_lhs => unfold readLoop
  rw [if_neg h, hr]

theorem readLoop_h0 (P : Blake2s.Primitive) :
    ∀ (n : Nat) (s : Xof), (readLoop P s n).2.2.h0 = s.h0
  | 0, s => rfl
  | n + 1, s => by
    by_cases h : s.left = 0
    · rw [readLoop_eof P s n h]
    · cases hr : refill P s with
      | none =>
        rw [readLoop_fail P s n h hr]
        exact adjustSize_h0 s
      | some s2 =>
        rw [readLoop_serve P s s2 n h hr]
        have ih := readLoop_h0 P n (step s2)
        have hst : (step s2).h0 = s2.h0 := rfl
        simp only []
        rw [ih, hst, (refill_some_fields P s s2 hr).2.1]

theorem readLoop_msg (P : Blake2s.Primitive) :
    ∀ (n : Nat) (s : Xof), (readLoop P s n).2.2.msg = s.msg
  | 0, s => rfl
  | n + 1, s => by
    by_cases h : s.left = 0
    · rw [readLoop_eof P s n h]
    · cases hr : refill P s with
      | none =>
        rw [readLoop_fail P s n h hr]
        exact adjustSize_msg s
      | some s2 =>
        rw [readLoop_serve P s s2 n h hr]
        have ih := readLoop_msg P n (step s2)
        have hst : (step s2).msg = s2.msg := rfl
        simp only []
        rw [ih, hst, (refill_some_fields P s s2 hr).2.2.1]

/-! Finalization lemmas. -/

theorem finalize_left (P : Blake2s.Primitive) (s : Xof) :
    (finalize P s).left = s.left := by
  unfold finalize; split <;> rfl

theorem finalize_px (P : Blake2s.Primitive) (s : Xof) :
    (finalize P s).px = s.px := by
  unfold finalize; split <;> rfl

theorem finalize_h0_ne (P : Blake2s.Primitive) (s : Xof) :
    (finalize P s).h0 ≠ none := by
  unfold finalize
  split
  · simp
  · simp [*]

theorem finalize_of_ne (P : Blake2s.Primitive) (s : Xof) (h : s.h0 ≠ none) :
    finalize P s = s := by
  unfold finalize
  split
  · exact absurd (by assumption) h
  · rfl

/-! The split law: a longer read decomposes as a shorter read continued. -/

theorem thenRead_cons (P : Blake2s.Primitive) (k : Nat)
    (r : List Nat × Option ReadErr × Xof) (b : Nat) :
    thenRead P k (b :: r.1, r.2) =
      (b :: (thenRead P k r).1, (thenRead P k r).2) := by
  obtain ⟨o, e, s1⟩ := r
  cases e <;> simp [thenRead]

theorem readLoop_add (P : Blake2s.Primitive) :
    ∀ (n : Nat) (s : Xof) (k : Nat),
      readLoop P s (n + k) = thenRead P k (readLoop P s n)
  | 0, s, k => by
    rw [readLoop_zero, Nat.zero_add]
    simp [thenRead]
  | n + 1, s, k => by
    have hsa : n + 1 + k = (n + k) + 1 := by omega
    rw [hsa]
    by_cases h : s.left = 0
    · rw [readLoop_eof P s (n + k) h, readLoop_eof P s n h]
      simp [thenRead]
    · cases hr : refill P s with
      | none =>
        rw [readLoop_fail P s (n + k) h hr, readLoop_fail P s n h hr]
        simp [thenRead]
      | some s2 =>
        rw [readLoop_serve P s s2 (n + k) h hr, readLoop_serve P s s2 n h hr]
        rw [readLoop_add P n (step s2) k, thenRead_cons]

/-! Complete characterization of a read when the primitive accepts every
config: the number of bytes produced, the error, and the new remaining
count, as functions of the requested count and the old remaining count. -/

theorem readLoop_run (P : Blake2s.Primitive) (hok : ∀ g, P.newOk g = true) :
    ∀ (n : Nat) (s : Xof), 0 ≤ s.left →
      (readLoop P s n).1.length = min n s.left.toNat
      ∧ (readLoop P s n).2.1 =
          (if (n : Int) ≤ s.left then none else some ReadErr.eof)
      ∧ (readLoop P s n).2.2.left = s.left - (min n s.left.toNat : Nat)
  | 0, s, hs => by
    rw [readLoop_zero]
    refine ⟨by simp, ?_, by simp⟩
    rw [if_pos (by exact_mod_cast hs)]
  | n + 1, s, hs => by
    by_cases h : s.left = 0
    · rw [readLoop_eof P s n h]
      refine ⟨by simp [h], ?_, by simp [h]⟩
      rw [if_neg (by rw [h]; push_cast; omega)]
    · obtain ⟨s2, hr⟩ := refill_total P hok s
      rw [readLoop_serve P s s2 n h hr]
      have hl2 : s2.left = s.left := (refill_some_fields P s s2 hr).1
      have hstep : (step s2).left = s.left - 1 := by
        simp [step, hl2]
      have ih := readLoop_run P hok n (step s2) (by rw [hstep]; omega)
      rw [hstep] at ih
      obtain ⟨ih1, ih2, ih3⟩ := ih
      refine ⟨?_, ?_, ?_⟩
      · simp only [List.length_cons, ih1]
        omega
      · simp only [ih2]
        by_cases hc : (n : Int) ≤ s.left - 1
        · rw [if_pos hc, if_pos (by push_cast; omega)]
        · rw [if_neg hc, if_neg (by push_cast; omega)]
      · simp only [ih3]
        omega

/-! Invariant preservation for the read loop. -/

theorem readLoop_inv (P : Blake2s.Primitive) :
    ∀ (n : Nat) (s : Xof), Inv s →
      Inv (readLoop P s n).2.2 ∧ (readLoop P s n).2.2.left ≤ s.left
  | 0, s, hs => by
    rw [readLoop_zero]; exact ⟨hs, le_rfl⟩
  | n + 1, s, hs => by
    by_cases h : s.left = 0
    · rw [readLoop_eof P s n h]; exact ⟨hs, le_rfl⟩
    · cases hr : refill P s with
      | none =>
        rw [readLoop_fail P s n h hr]
        refine ⟨⟨?_, ?_⟩, ?_⟩
        · rw [adjustSize_px]; exact hs.1
        · rw [adjustSize_left]; exact hs.2
        · rw [adjustSize_left]
      | some s2 =>
        rw [readLoop_serve P s s2 n h hr]
        have hl2 : s2.left = s.left := (refill_some_fields P s s2 hr).1
        have hInvStep : Inv (step s2) := by
          constructor
          · rcases refill_px_cases P s s2 hr with h0 | ⟨rfl, hlt⟩
            · show s2.px + 1 ≤ Blake2s.Size
              rw [h0]
              norm_num [Blake2s.Size]
            · show s2.px + 1 ≤ Blake2s.Size
              omega
          · show 0 ≤ s2.left - 1
            rw [hl2]
            have := hs.2
            omega
        have ih := readLoop_inv P n (step s2) hInvStep
        refine ⟨ih.1, ?_⟩
        show (readLoop P (step s2) n).2.2.left ≤ s.left
        have hsl : (step s2).left = s.left - 1 := by simp [step, hl2]
        have := ih.2
        rw [hsl] at this
        have := hs.2
        omega

/-! Serving bytes out of the current buffer without crossing a refill. -/

theorem readLoop_emit (P : Blake2s.Primitive) :
    ∀ (k : Nat) (s : Xof), s.px + k ≤ Blake2s.Size → (k : Int) ≤ s.left →
      readLoop P s k =
        ((List.range k).map (fun i => s.x.getD (s.px + i) 0), none,
          { s with px := s.px + k, left := s.left - (k : Int) })
  | 0, s, hpk, hkl => by
    rw [readLoop_zero]
    have hstate : ({ s with px := s.px + 0, left := s.left - ((0 : Nat) : Int) } : Xof) = s := by
      cases s; simp
    rw [hstate]
    simp
  | k + 1, s, hpk, hkl => by
    have h0 : s.left ≠ 0 := by
      intro hz
      rw [hz] at hkl
      push_cast at hkl
      omega
    have hplt : s.px < Blake2s.Size := by omega
    rw [readLoop_serve P s s k h0 (refill_of_lt P s hplt)]
    have ih := readLoop_emit P k (step s)
      (by show s.px + 1 + k ≤ Blake2s.Size; omega)
      (by show (k : Int) ≤ s.left - 1; push_cast at hkl ⊢; omega)
    rw [ih]
    have hx : (step s).x = s.x := rfl
    have hpx : (step s).px = s.px + 1 := rfl
    have hleft : (step s).left = s.left - 1 := rfl
    refine congrArg₂ Prod.mk ?_ (congrArg₂ Prod.mk rfl ?_)
    · rw [hx, hpx, List.range_succ_eq_map, List.map_cons, List.map_map]
      refine congrArg₂ List.cons (by rw [Nat.add_zero]) ?_
      refine List.map_congr_left fun i _ => ?_
      show s.x.getD (s.px + 1 + i) 0 = s.x.getD (s.px + (i + 1)) 0
      congr 1
      omega
    · rw [hpx, hleft]
      show ({ s with px := s.px + 1 + k, left := s.left - 1 - (k : Int) } : Xof)
        = { s with px := s.px + (k + 1), left := s.left - ((k + 1 : Nat) : Int) }
      have e1 : s.px + 1 + k = s.px + (k + 1) := by omega
      have e2 : s.left - 1 - (k : Int) = s.left - ((k + 1 : Nat) : Int) := by
        push_cast
        ring
      rw [e1, e2]

/-- One refilled buffer served from position zero: the cons of the head byte
with the bytes emitted by the remaining loop is the leading segment of the
buffer. -/
theorem readLoop_emit_head (P : Blake2s.Primitive) (s2 : Xof) (m : Nat)
    (hpx2 : s2.px = 0) (hm : m + 1 ≤ Blake2s.Size) (hml : (m : Int) + 1 ≤ s2.left) :
    s2.x.getD s2.px 0 :: (readLoop P (step s2) m).1
      = (List.range (m + 1)).map fun i => s2.x.getD i 0 := by
  have hemit := readLoop_emit P m (step s2)
    (by show s2.px + 1 + m ≤ Blake2s.Size; omega)
    (by show (m : Int) ≤ s2.left - 1; omega)
  rw [hemit]
  show s2.x.getD s2.px 0
      :: (List.range m).map (fun i => (step s2).x.getD ((step s2).px + i) 0) = _
  have hsx : (step s2).x = s2.x := rfl
  have hspx : (step s2).px = s2.px + 1 := rfl
  rw [hsx, hspx, hpx2]
  rw [List.range_succ_eq_map, List.map_cons, List.map_map]
  refine congrArg₂ List.cons rfl ?_
  refine List.map_congr_left fun i _ => ?_
  show s2.x.getD (0 + 1 + i) 0 = s2.x.getD (Nat.succ i) 0
  congr 1
  omega

/-! The first generated block: a read of at most one digest from a state
with an exhausted buffer produces exactly the leading bytes of the leaf
digest of the root digest. -/

theorem readLoop_first_block (P : Blake2s.Primitive) (s : Xof) (d : List Nat)
    (n : Nat) (hpx : Blake2s.Size ≤ s.px)
    (hok : P.newOk (adjustSize s).oc = true) (hd : s.h0 = some d)
    (hn : n ≤ Blake2s.Size) (hnl : (n : Int) ≤ s.left) :
    (readLoop P s n).1 =
      (List.range n).map fun i => (P.sum (adjustSize s).oc d).getD i 0 := by
  cases n with
  | zero => simp [readLoop_zero]
  | succ m =>
    have h0 : s.left ≠ 0 := by
      intro hz
      rw [hz] at hnl
      push_cast at hnl
      omega
    have hgd : (adjustSize s).h0.getD [] = d := by
      rw [adjustSize_h0, hd]
      rfl
    have hex : ∃ s2, refill P s = some s2
        ∧ s2.x = P.sum (adjustSize s).oc d ∧ s2.px = 0 ∧ s2.left = s.left := by
      refine ⟨_, refill_of_ge P s hpx hok, ?_, rfl, ?_⟩
      · show P.sum (adjustSize s).oc ((adjustSize s).h0.getD []) = _
        rw [hgd]
      · show (adjustSize s).left = s.left
        exact adjustSize_left s
    obtain ⟨s2, hrefill, hx2, hpx2, hleft2⟩ := hex
    rw [readLoop_serve P s s2 m h0 hrefill]
    show s2.x.getD s2.px 0 :: (readLoop P (step s2) m).1 = _
    rw [readLoop_emit_head P s2 m hpx2 hn
      (by rw [hleft2]; push_cast at hnl ⊢; omega)]
    rw [hx2]

/-! End-to-end lemmas about a freshly constructed and written engine. -/

theorem writtenXof_eq (c : Config) (m : List Nat) :
    writtenXof c m = { initXof c with msg := m } := by
  unfold writtenXof Xof.write initXof
  simp

theorem xofOut_eq (P : Blake2s.Primitive) (c : Config) (m : List Nat) (n : Nat)
    (hok : P.newOk (rootCfg c) = true) :
    xofOut P c m n = (Xof.read P (writtenXof c m) n).1 := by
  unfold xofOut NewXOF writtenXof
  rw [hok]
  simp

theorem finalize_written (P : Blake2s.Primitive) (c : Config) (m : List Nat) :
    finalize P (writtenXof c m)
      = { initXof c with msg := m, h0 := some (P.sum (rootCfg c) m) } := by
  rw [writtenXof_eq]
  unfold finalize initXof
  simp

theorem finalize_written_left (P : Blake2s.Primitive) (c : Config) (m : List Nat) :
    (finalize P (writtenXof c m)).left = (effLen c : Int) := by
  rw [finalize_written]
  rfl

theorem finalize_oc (P : Blake2s.Primitive) (s : Xof) :
    (finalize P s).oc = s.oc := by
  unfold finalize; split <;> rfl

theorem finalize_written_oc (P : Blake2s.Primitive) (c : Config) (m : List Nat) :
    (finalize P (writtenXof c m)).oc = outCfg c := by
  rw [finalize_oc, writtenXof_eq]
  rfl

theorem adjustSize_finalize_written (P : Blake2s.Primitive) (c : Config)
    (m : List Nat) :
    (adjustSize (finalize P (writtenXof c m))).oc = firstBlockCfg c := by
  rw [adjustSize_oc, finalize_written_oc, finalize_written_left]
  unfold firstBlockCfg
  by_cases hc : ((effLen c : Int)) < (Blake2s.Size : Int)
  · rw [if_pos hc, if_pos hc]
    have : ((effLen c : Int)).toNat = effLen c := Int.toNat_natCast _
    rw [this]
  · rw [if_neg hc, if_neg hc]

theorem xofOut_first (P : Blake2s.Primitive) (c : Config) (m : List Nat)
    (n : Nat) (hok : ∀ g, P.newOk g = true) (hn : n ≤ Blake2s.Size)
    (hne : n ≤ effLen c) :
    xofOut P c m n = (List.range n).map fun i => (firstBlock P c m).getD i 0 := by
  rw [xofOut_eq P c m n (hok _)]
  unfold Xof.read
  have hfb := readLoop_first_block P (finalize P (writtenXof c m))
    (P.sum (rootCfg c) m) n
    (by rw [finalize_written]; show Blake2s.Size ≤ Blake2s.Size; exact le_rfl)
    (hok _)
    (by rw [finalize_written])
    hn
    (by rw [finalize_written_left]; exact_mod_cast hne)
  rw [hfb, adjustSize_finalize_written]
  rfl

theorem xofOut_length (P : Blake2s.Primitive) (c : Config) (m : List Nat)
    (n : Nat) (hok : ∀ g, P.newOk g = true) :
    (xofOut P c m n).length = min n (effLen c) := by
  rw [xofOut_eq P c m n (hok _)]
  unfold Xof.read
  have hrun := (readLoop_run P hok n (finalize P (writtenXof c m))
    (by rw [finalize_written_left]; positivity)).1
  rw [hrun, finalize_written_left, Int.toNat_natCast]

theorem xofOut_take (P : Blake2s.Primitive) (c : Config) (m : List Nat)
    (n k : Nat) (hok : ∀ g, P.newOk g = true) (hk : k ≤ n)
    (hke : k ≤ effLen c) :
    (xofOut P c m n).take k = xofOut P c m k := by
  rw [xofOut_eq P c m n (hok _), xofOut_eq P c m k (hok _)]
  unfold Xof.read
  have hnk : n = k + (n - k) := by omega
  rw [hnk, readLoop_add]
  rcases hrr : readLoop P (finalize P (writtenXof c m)) k with ⟨o, e, s1⟩
  have hrun := readLoop_run P hok k (finalize P (writtenXof c m))
    (by rw [finalize_written_left]; positivity)
  rw [hrr, finalize_written_left, Int.toNat_natCast] at hrun
  have he : e = none := by
    have := hrun.2.1
    rw [if_pos (by exact_mod_cast hke)] at this
    exact this
  have hlen : o.length = k := by
    have := hrun.1
    simpa [Nat.min_eq_left hke] using this
  subst he
  show (thenRead P (n - k) (o, none, s1)).1.take k = o
  unfold thenRead
  show (o ++ (readLoop P s1 (n - k)).1).take k = o
  rw [← hlen, List.take_left]

/-! Chunked reading equals a single read of the total size. -/

theorem readChunks_run (P : Blake2s.Primitive) (hok : ∀ g, P.newOk g = true) :
    ∀ (ks : List Nat) (s : Xof), 0 ≤ s.left → ((ks.sum : Int)) ≤ s.left →
      readChunksOut P s ks = (Xof.read P s ks.sum).1
  | [], s, _, _ => by
    unfold readChunksOut Xof.read
    rw [List.sum_nil, readLoop_zero]
  | k :: ks, s, hs, hsum => by
    unfold readChunksOut
    rw [List.sum_cons] at hsum ⊢
    show (Xof.read P s k).1 ++ readChunksOut P (Xof.read P s k).2.2 ks
      = (readLoop P (finalize P s) (k + ks.sum)).1
    rw [readLoop_add]
    have hfl : (finalize P s).left = s.left := finalize_left P s
    rcases hrr : readLoop P (finalize P s) k with ⟨o, e, s1⟩
    have hrun := readLoop_run P hok k (finalize P s) (by rw [hfl]; exact hs)
    rw [hrr, hfl] at hrun
    have hcast : ((k : Int)) + ((ks.sum : Nat) : Int) ≤ s.left := by
      rw [← Nat.cast_add]; exact hsum
    have hnn : (0 : Int) ≤ ((ks.sum : Nat) : Int) := Int.natCast_nonneg _
    have hks : (k : Int) ≤ s.left := by omega
    have he : e = none := by
      have := hrun.2.1
      rw [if_pos hks] at this
      exact this
    subst he
    have hs1left : s1.left = s.left - (k : Int) := by
      have := hrun.2.2
      rw [Nat.min_eq_left (by omega : k ≤ s.left.toNat)] at this
      exact this
    have hs1h0 : s1.h0 ≠ none := by
      have h1 : s1.h0 = (finalize P s).h0 := by
        have := readLoop_h0 P k (finalize P s)
        rw [hrr] at this
        exact this
      rw [h1]
      exact finalize_h0_ne P s
    have hread : Xof.read P s k = (o, none, s1) := by
      unfold Xof.read
      exact hrr
    rw [hread]
    show o ++ readChunksOut P s1 ks = (thenRead P ks.sum (o, none, s1)).1
    unfold thenRead
    show o ++ readChunksOut P s1 ks = o ++ (readLoop P s1 ks.sum).1
    have ih := readChunks_run P hok ks s1
      (by rw [hs1left]; omega)
      (by rw [hs1left]; omega)
    rw [ih]
    unfold Xof.read
    rw [finalize_of_ne P s1 hs1h0]

theorem effLen_of_pos (c : Config) (L : Nat) (h : 0 < L) :
    effLen { c with size := L } = L := by
  unfold effLen
  rw [if_neg (show ¬(({ c with size := L } : Config).size = 0) by
    show ¬(L = 0); omega)]

/-! Claim theorems. -/

/-- C2: NewXOF resolves the effective output length to the declared size when
nonzero and to 65535 when zero; builds the root hash config with the full
32-byte digest size, the configuration's key, salt and person, and the
configuration's tree (or the default with fanout 1, maxDepth 1) with
(effective length) << 32 added to its nodeOffset; and on success returns an
engine whose buffer position equals the 32-byte digest size and whose
remaining count equals the effective length. -/
theorem NewXOF_construction (P : Blake2s.Primitive) (c : Config)
    (hok : P.newOk (rootCfg c) = true) :
    (NewXOF P c).1 = some (initXof c)
    ∧ (c.size ≠ 0 → effLen c = c.size)
    ∧ (c.size = 0 → effLen c = 65535)
    ∧ (initXof c).rcfg.size = Blake2s.Size
    ∧ Blake2s.Size = 32
    ∧ (initXof c).rcfg.key = c.key
    ∧ (initXof c).rcfg.salt = c.salt
    ∧ (initXof c).rcfg.person = c.person
    ∧ (∀ t, c.tree = some t → (initXof c).rcfg.tree
        = some { t with nodeOffset := (t.nodeOffset + (effLen c <<< 32)) % U64 })
    ∧ (c.tree = none → (initXof c).rcfg.tree
        = some { fanout := 1, maxDepth := 1, leafSize := 0,
                 nodeOffset := (effLen c <<< 32) % U64, nodeDepth := 0,
                 innerHashSize := 0, isLastNode := false })
    ∧ (initXof c).px = Blake2s.Size
    ∧ (initXof c).left = (effLen c : Int) := by
  refine ⟨?_, ?_, ?_, rfl, rfl, rfl, rfl, rfl, ?_, ?_, rfl, rfl⟩
  · unfold NewXOF
    rw [hok]
    rfl
  · intro h
    unfold effLen
    rw [if_neg h]
  · intro h
    unfold effLen UnknownSize
    rw [if_pos h]
    norm_num
  · intro t ht
    show (rootCfg c).tree = _
    unfold rootCfg rootTree baseTree
    rw [ht]
  · intro ht
    show (rootCfg c).tree = _
    unfold rootCfg rootTree baseTree
    rw [ht]
    simp

/-- Witness for C2 at a concrete configuration. -/
theorem NewXOF_construction_witness :
    (NewXOF toyP wC1).1 = some (initXof wC1) :=
  (NewXOF_construction toyP wC1 rfl).1

/-- C3: the output-block config template built by NewXOF has salt and person
copied from the configuration, fanout 0, maxDepth 0, leaf size 32, inner
hash size 32, nodeDepth 0, isLastNode false, and nodeOffset initialized to
(effective length) << 32, which is exactly the encoded-length value added to
the root tree's nodeOffset; and the unknown-size sentinel constant equals
2^16 - 1 = 65535. -/
theorem outCfg_template (P : Blake2s.Primitive) (c : Config)
    (hok : P.newOk (rootCfg c) = true) :
    (∀ s0, (NewXOF P c).1 = some s0 → s0.oc = outCfg c)
    ∧ (outCfg c).salt = c.salt
    ∧ (outCfg c).person = c.person
    ∧ (outCfg c).size = Blake2s.Size
    ∧ (outCfg c).tree
        = some { fanout := 0, maxDepth := 0, leafSize := 32,
                 nodeOffset := effLen c <<< 32, nodeDepth := 0,
                 innerHashSize := 32, isLastNode := false }
    ∧ (rootTree c).nodeOffset
        = ((baseTree c).nodeOffset + (effLen c <<< 32)) % U64
    ∧ UnknownSize = 2 ^ 16 - 1
    ∧ UnknownSize = 65535 := by
  refine ⟨?_, rfl, rfl, rfl, rfl, rfl, rfl, rfl⟩
  intro s0 h
  unfold NewXOF at h
  rw [hok] at h
  simp at h
  rw [← h]
  rfl

/-- Witness for C3 at a concrete configuration. -/
theorem outCfg_template_witness : UnknownSize = 65535 :=
  (outCfg_template toyP wC1 rfl).2.2.2.2.2.2.2

/-- C5: before any Read, Write forwards the bytes to the root hash and
returns the primitive's result; any Read finalizes the root digest
(afterwards h0 is never none), and once that has happened every Write fails
with the invalid-state error, returns count 0, and forwards no bytes to the
root hash (the accumulated message is unchanged). -/
theorem write_after_read (P : Blake2s.Primitive) (s : Xof) (p q : List Nat)
    (n : Nat) :
    (s.h0 = none →
      Xof.write s p = ((p.length, none), { s with msg := s.msg ++ p }))
    ∧ (s.h0 ≠ none → Xof.write s p
        = ((0, some "blake2xs: cannot write after reading"), s))
    ∧ (Xof.read P s n).2.2.h0 ≠ none
    ∧ (Xof.write (Xof.read P s n).2.2 q).1
        = (0, some "blake2xs: cannot write after reading")
    ∧ (Xof.write (Xof.read P s n).2.2 q).2.msg = (Xof.read P s n).2.2.msg := by
  have hread : (Xof.read P s n).2.2.h0 ≠ none := by
    unfold Xof.read
    rw [readLoop_h0 P n (finalize P s)]
    exact finalize_h0_ne P s
  refine ⟨?_, ?_, hread, ?_, ?_⟩
  · intro h
    unfold Xof.write
    rw [h]
  · intro h
    rcases hs0 : s.h0 with _ | d
    · exact absurd hs0 h
    · unfold Xof.write
      rw [hs0]
  · rcases hv : (Xof.read P s n).2.2.h0 with _ | d
    · exact absurd hv hread
    · unfold Xof.write
      rw [hv]
  · rcases hv : (Xof.read P s n).2.2.h0 with _ | d
    · exact absurd hv hread
    · unfold Xof.write
      rw [hv]

/-- Witness for C5: after a read on a fresh engine, a write is rejected. -/
theorem write_after_read_witness :
    (Xof.write (Xof.read toyP (initXof wC) 1).2.2 [7]).1
      = (0, some "blake2xs: cannot write after reading") :=
  (write_after_read toyP (initXof wC) [3] [7] 1).2.2.2.1

/-- C8: determinism — the construct-write-read-all procedure is a function
of the configuration value and the message, so two configurations agreeing
on every field produce identical full outputs on every repetition. -/
theorem xof_deterministic (P : Blake2s.Primitive) (c1 c2 : Config)
    (m : List Nat) (h1 : c1.size = c2.size) (h2 : c1.key = c2.key)
    (h3 : c1.salt = c2.salt) (h4 : c1.person = c2.person)
    (h5 : c1.tree = c2.tree) :
    xofOut P c1 m (effLen c1) = xofOut P c2 m (effLen c2) := by
  have hc : c1 = c2 := by
    cases c1
    cases c2
    simp_all
  rw [hc]

/-- Witness for C8 with two syntactically distinct equal configurations. -/
theorem xof_deterministic_witness :
    xofOut toyP wC1 wM (effLen wC1) = xofOut toyP wC1b wM (effLen wC1b) :=
  xof_deterministic toyP wC1 wC1b wM rfl rfl rfl rfl rfl

/-- C9: Write and Read preserve the state invariants — the buffer position
stays at most the 32-byte digest size and the remaining count stays
non-negative and is non-increasing across Read — and NewXOF establishes
the invariant. -/
theorem xof_invariants (P : Blake2s.Primitive) (c : Config) (s : Xof)
    (p : List Nat) (n : Nat) (hs : Inv s) :
    Inv (Xof.write s p).2
    ∧ Inv (Xof.read P s n).2.2
    ∧ (Xof.read P s n).2.2.left ≤ s.left
    ∧ (∀ s0, (NewXOF P c).1 = some s0 → Inv s0) := by
  have hfin : Inv (finalize P s) := by
    constructor
    · rw [finalize_px]; exact hs.1
    · rw [finalize_left]; exact hs.2
  have hrl := readLoop_inv P n (finalize P s) hfin
  refine ⟨?_, ?_, ?_, ?_⟩
  · rcases hs0 : s.h0 with _ | d
    · unfold Xof.write
      rw [hs0]
      exact ⟨hs.1, hs.2⟩
    · unfold Xof.write
      rw [hs0]
      exact hs
  · unfold Xof.read
    exact hrl.1
  · unfold Xof.read
    have := hrl.2
    rw [finalize_left] at this
    exact this
  · intro s0 h
    unfold NewXOF at h
    split at h
    · cases h
      exact ⟨le_rfl, Int.natCast_nonneg _⟩
    · cases h

/-- Witness for C9 on a concrete engine and read. -/
theorem xof_invariants_witness :
    Inv (Xof.read toyP (initXof wC) 5).2.2 :=
  (xof_invariants toyP wC (initXof wC) [1] 5 ⟨by decide, by decide⟩).2.1

/-- C1: in the reading phase, whenever the output buffer is exhausted
(px has reached the 32-byte digest size) and remaining > 0, the next block is
generated by: setting the output-block config's size to remaining when
remaining < 32; instantiating a fresh primitive hash from that config;
writing into it exactly the root digest — independent of the original
message; storing its digest as the new output buffer with position reset
to 0; and incrementing the output-block config's nodeOffset by exactly 1
after the block is produced (the block is computed with the pre-increment
config), leaving remaining and the root digest untouched. -/
theorem read_block_generation (P : Blake2s.Primitive) (s : Xof)
    (d : List Nat) (hpx : Blake2s.Size ≤ s.px) (hleft : 0 < s.left)
    (hd : s.h0 = some d) (hok : P.newOk (adjustSize s).oc = true) :
    ((adjustSize s).oc.size
        = if s.left < (Blake2s.Size : Int) then s.left.toNat else s.oc.size)
    ∧ (refill P s).isSome = true
    ∧ (refill P s).map Xof.x = some (P.sum (adjustSize s).oc d)
    ∧ (∀ m2, (refill P { s with msg := m2 }).map Xof.x
        = some (P.sum (adjustSize s).oc d))
    ∧ (refill P s).map Xof.px = some 0
    ∧ (refill P s).map Xof.left = some s.left
    ∧ (refill P s).map Xof.h0 = some s.h0
    ∧ (refill P s).map (fun t => t.oc.tree.map Blake2s.Tree.nodeOffset)
        = some ((adjustSize s).oc.tree.map fun t => (t.nodeOffset + 1) % U64)
    ∧ (∀ n : Nat, (readLoop P s (n + 1)).1
        = (P.sum (adjustSize s).oc d).getD 0 0
            :: (readLoop P (step ((refill P s).getD s)) n).1) := by
  have hgd : (adjustSize s).h0.getD [] = d := by
    rw [adjustSize_h0, hd]
    rfl
  have hre := refill_of_ge P s hpx hok
  have hne : s.left ≠ 0 := by omega
  refine ⟨?_, ?_, ?_, ?_, ?_, ?_, ?_, ?_, ?_⟩
  · rw [adjustSize_oc]
    by_cases hc : s.left < (Blake2s.Size : Int)
    · rw [if_pos hc, if_pos hc]
    · rw [if_neg hc, if_neg hc]
  · rw [hre]
    rfl
  · rw [hre]
    show some _ = _
    rw [hgd]
  · intro m2
    have hoc2 : (adjustSize { s with msg := m2 }).oc = (adjustSize s).oc := by
      rw [adjustSize_oc, adjustSize_oc]
    have hre2 := refill_of_ge P { s with msg := m2 }
      (show Blake2s.Size ≤ s.px from hpx) (by rw [hoc2]; exact hok)
    rw [hre2]
    show some (P.sum (adjustSize { s with msg := m2 }).oc
      ((adjustSize { s with msg := m2 }).h0.getD [])) = _
    have hgd2 : (adjustSize { s with msg := m2 }).h0.getD [] = d := by
      rw [adjustSize_h0]
      show s.h0.getD [] = d
      rw [hd]
      rfl
    rw [hgd2, hoc2]
  · rw [hre]
    rfl
  · rw [hre]
    show some (adjustSize s).left = _
    rw [adjustSize_left]
  · rw [hre]
    show some (adjustSize s).h0 = _
    rw [adjustSize_h0]
  · rw [hre]
    show some ((bump (adjustSize s).oc).tree.map Blake2s.Tree.nodeOffset) = _
    rcases htree : (adjustSize s).oc.tree with _ | t
    · simp [bump, htree]
    · simp [bump, htree]
  · intro n
    rw [readLoop_serve P s _ n hne hre, hre]
    show _ :: (readLoop P (step _) n).1 = _
    rw [hgd]
    rfl

/-- Witness for C1 on a concrete finalized engine. -/
theorem read_block_generation_witness :
    (refill toyP wS).map Xof.px = some 0 :=
  (read_block_generation toyP wS wD (by decide) (by decide) rfl rfl).2.2.2.2.1

/-- C6: Read produces at most n bytes, returning fewer than n together with
the end-of-stream signal exactly when the remaining count is exhausted
before the buffer is filled; reading exactly the declared size succeeds
without end-of-stream, and any subsequent non-empty read returns zero bytes
with end-of-stream. -/
theorem read_eof_semantics (P : Blake2s.Primitive) (c : Config)
    (m : List Nat) (s : Xof) (n k : Nat) (hok : ∀ g, P.newOk g = true)
    (hs : 0 ≤ s.left) (hk : 0 < k) :
    ((Xof.read P s n).1.length ≤ n)
    ∧ ((Xof.read P s n).1.length = min n s.left.toNat)
    ∧ ((Xof.read P s n).2.1 = some ReadErr.eof ↔ s.left < (n : Int))
    ∧ ((Xof.read P (writtenXof c m) (effLen c)).2.1 = none)
    ∧ ((Xof.read P (writtenXof c m) (effLen c)).1.length = effLen c)
    ∧ ((Xof.read P (Xof.read P (writtenXof c m) (effLen c)).2.2 k).1 = [])
    ∧ ((Xof.read P (Xof.read P (writtenXof c m) (effLen c)).2.2 k).2.1
        = some ReadErr.eof) := by
  have hsf : 0 ≤ (finalize P s).left := by rw [finalize_left]; exact hs
  have hrun := readLoop_run P hok n (finalize P s) hsf
  rw [finalize_left] at hrun
  have hF := readLoop_run P hok (effLen c) (finalize P (writtenXof c m))
    (by rw [finalize_written_left]; positivity)
  rw [finalize_written_left, Int.toNat_natCast] at hF
  have hFerr : (Xof.read P (writtenXof c m) (effLen c)).2.1 = none := by
    unfold Xof.read
    rw [hF.2.1, if_pos le_rfl]
  have hFleft : (Xof.read P (writtenXof c m) (effLen c)).2.2.left = 0 := by
    unfold Xof.read
    rw [hF.2.2, min_self]
    ring
  have hFh0 : (Xof.read P (writtenXof c m) (effLen c)).2.2.h0 ≠ none := by
    unfold Xof.read
    rw [readLoop_h0]
    exact finalize_h0_ne P (writtenXof c m)
  have hfix : finalize P (Xof.read P (writtenXof c m) (effLen c)).2.2
      = (Xof.read P (writtenXof c m) (effLen c)).2.2 :=
    finalize_of_ne P _ hFh0
  have hlast := readLoop_run P hok k
    (Xof.read P (writtenXof c m) (effLen c)).2.2 (by rw [hFleft])
  rw [hFleft] at hlast
  refine ⟨?_, ?_, ?_, hFerr, ?_, ?_, ?_⟩
  · unfold Xof.read
    rw [hrun.1]
    omega
  · unfold Xof.read
    rw [hrun.1]
  · unfold Xof.read
    rw [hrun.2.1]
    by_cases hc : (n : Int) ≤ s.left
    · rw [if_pos hc]
      constructor
      · intro hcon
        cases hcon
      · intro hlt
        omega
    · rw [if_neg hc]
      constructor
      · intro _
        omega
      · intro _
        rfl
  · unfold Xof.read
    rw [hF.1, min_self]
  · show (readLoop P (finalize P _) k).1 = []
    rw [hfix]
    have := hlast.1
    have hz : (readLoop P (Xof.read P (writtenXof c m) (effLen c)).2.2 k).1.length
        = 0 := by
      rw [this]
      simp
    exact List.eq_nil_of_length_eq_zero hz
  · show (readLoop P (finalize P _) k).2.1 = some ReadErr.eof
    rw [hfix]
    rw [hlast.2.1, if_neg (by omega)]

/-- Witness for C6 on a concrete full read of the declared size. -/
theorem read_eof_semantics_witness :
    (Xof.read toyP (writtenXof wC1 wM) (effLen wC1)).2.1 = none :=
  (read_eof_semantics toyP wC1 wM (initXof wC) 4 1 (fun _ => rfl)
    (by decide) (by decide)).2.2.2.1

/-- C7: chunking invariance — for any chunk sizes summing to at most the
declared length, the concatenation of the successive reads equals a single
read of the total length on an identically constructed and written engine. -/
theorem read_chunking (P : Blake2s.Primitive) (c : Config) (m : List Nat)
    (ks : List Nat) (hok : ∀ g, P.newOk g = true)
    (hsum : ks.sum ≤ effLen c) :
    readChunksOut P (writtenXof c m) ks = xofOut P c m ks.sum := by
  rw [xofOut_eq P c m ks.sum (hok _)]
  have hwleft : (writtenXof c m).left = (effLen c : Int) := by
    rw [writtenXof_eq]
    rfl
  refine (readChunks_run P hok ks (writtenXof c m) ?_ ?_).symm ▸ rfl
  · rw [hwleft]
    positivity
  · rw [hwleft]
    exact_mod_cast hsum

/-- Witness for C7 on concrete chunk sizes. -/
theorem read_chunking_witness :
    readChunksOut toyP (writtenXof wC1 wM) [1, 2]
      = xofOut toyP wC1 wM (List.sum [1, 2]) :=
  read_chunking toyP wC1 wM [1, 2] (fun _ => rfl) (by decide)

/-- C4: with the unknown-size sentinel declared, an N-byte read equals the
first N bytes of an M-byte read (N ≤ M ≤ 65535) from an identically
constructed engine; for two different finite declared lengths L1 < L2 the
derived root configs differ (the encoded length is folded into nodeOffset
before finalization), and whenever the primitive's resulting first-block
digests differ on the compared range — as the collaborator contract
guarantees for a cryptographic primitive on distinct configs — the L1 output
is not a prefix of the L2 output. -/
theorem sentinel_and_finite_length_outputs (P : Blake2s.Primitive)
    (c : Config) (m : List Nat) (hok : ∀ g, P.newOk g = true) :
    (∀ N M, c.size = 0 → N ≤ M → M ≤ UnknownSize →
      xofOut P c m N = (xofOut P c m M).take N)
    ∧ (∀ L1 L2, 0 < L1 → L1 < L2 → L2 < UnknownSize →
        rootCfg { c with size := L1 } ≠ rootCfg { c with size := L2 }
        ∧ (((List.range (min L1 Blake2s.Size)).map
              (fun i => (firstBlock P { c with size := L1 } m).getD i 0)
            ≠ (List.range (min L1 Blake2s.Size)).map
              (fun i => (firstBlock P { c with size := L2 } m).getD i 0)) →
           ∀ t, xofOut P { c with size := L1 } m L1 ++ t
              ≠ xofOut P { c with size := L2 } m L2)) := by
  constructor
  · intro N M h0 hNM hM
    have heff : effLen c = UnknownSize := by
      unfold effLen
      rw [if_pos h0]
    exact (xofOut_take P c m M N hok hNM (by rw [heff]; omega)).symm
  · intro L1 L2 hL1 hL12 hL2
    have e1 : effLen { c with size := L1 } = L1 := effLen_of_pos c L1 hL1
    have e2 : effLen { c with size := L2 } = L2 := effLen_of_pos c L2 (by omega)
    constructor
    · intro h
      have htree : rootTree { c with size := L1 } = rootTree { c with size := L2 } :=
        Option.some.inj (congrArg Blake2s.Config.tree h)
      have hno : ((baseTree c).nodeOffset + (L1 <<< 32)) % U64
          = ((baseTree c).nodeOffset + (L2 <<< 32)) % U64 := by
        have hb1 : baseTree ({ c with size := L1 } : Config) = baseTree c := rfl
        have hb2 : baseTree ({ c with size := L2 } : Config) = baseTree c := rfl
        have := congrArg Blake2s.Tree.nodeOffset htree
        unfold rootTree at this
        rw [hb1, hb2, e1, e2] at this
        exact this
      have hmod : (L1 <<< 32) % U64 = (L2 <<< 32) % U64 :=
        Nat.ModEq.add_left_cancel' (baseTree c).nodeOffset hno
      rw [Nat.shiftLeft_eq, Nat.shiftLeft_eq] at hmod
      have hp32 : (2 : Nat) ^ 32 = 4294967296 := by norm_num
      have hp64 : U64 = 18446744073709551616 := by
        unfold U64
        norm_num
      have hub : UnknownSize = 65535 := by
        unfold UnknownSize
        norm_num
      rw [Nat.mod_eq_of_lt (by rw [hp64, hp32]; rw [hub] at hL2; omega),
        Nat.mod_eq_of_lt (by rw [hp64, hp32]; rw [hub] at hL2; omega)] at hmod
      have : L1 = L2 := Nat.eq_of_mul_eq_mul_right (by positivity) hmod
      omega
    · intro hdiff t h
      have hk1 : min L1 Blake2s.Size ≤ L1 := min_le_left _ _
      have hkS : min L1 Blake2s.Size ≤ Blake2s.Size := min_le_right _ _
      have hlen1 : (xofOut P { c with size := L1 } m L1).length = L1 := by
        rw [xofOut_length P _ m L1 hok, e1, min_self]
      have htake1 : (xofOut P { c with size := L1 } m L1).take (min L1 Blake2s.Size)
          = xofOut P { c with size := L1 } m (min L1 Blake2s.Size) :=
        xofOut_take P _ m L1 (min L1 Blake2s.Size) hok hk1 (by rw [e1]; exact hk1)
      have htake2 : (xofOut P { c with size := L2 } m L2).take (min L1 Blake2s.Size)
          = xofOut P { c with size := L2 } m (min L1 Blake2s.Size) :=
        xofOut_take P _ m L2 (min L1 Blake2s.Size) hok (by omega) (by rw [e2]; omega)
      have hfirst1 : xofOut P { c with size := L1 } m (min L1 Blake2s.Size)
          = (List.range (min L1 Blake2s.Size)).map
              (fun i => (firstBlock P { c with size := L1 } m).getD i 0) :=
        xofOut_first P _ m _ hok hkS (by rw [e1]; exact hk1)
      have hfirst2 : xofOut P { c with size := L2 } m (min L1 Blake2s.Size)
          = (List.range (min L1 Blake2s.Size)).map
              (fun i => (firstBlock P { c with size := L2 } m).getD i 0) :=
        xofOut_first P _ m _ hok hkS (by rw [e2]; omega)
      have hsame : (xofOut P { c with size := L2 } m L2).take (min L1 Blake2s.Size)
          = (xofOut P { c with size := L1 } m L1).take (min L1 Blake2s.Size) := by
        rw [← h, List.take_append_eq_append_take]
        have hzero : min L1 Blake2s.Size - (xofOut P { c with size := L1 } m L1).length
            = 0 := by
          rw [hlen1]
          omega
        rw [hzero, List.take_zero, List.append_nil]
      exact hdiff (by rw [← hfirst1, ← hfirst2, ← htake1, ← htake2, hsame])

set_option maxRecDepth 100000 in
/-- Witness for C4: sentinel reads agree on the shared range, distinct
finite lengths give distinct root configs, and the concrete outputs for
lengths 3 and 5 are not prefixes of one another. -/
theorem sentinel_and_finite_length_outputs_witness :
    xofOut toyP wC wM 3 = (xofOut toyP wC wM 7).take 3
    ∧ rootCfg wC1 ≠ rootCfg wC2
    ∧ xofOut toyP wC1 wM 3 ++ [] ≠ xofOut toyP wC2 wM 5 := by
  refine ⟨?_, ?_, ?_⟩
  · exact (sentinel_and_finite_length_outputs toyP wC wM (fun _ => rfl)).1
      3 7 rfl (by omega) (by decide)
  · exact ((sentinel_and_finite_length_outputs toyP wC wM (fun _ => rfl)).2
      3 5 (by omega) (by omega) (by decide)).1
  · exact ((sentinel_and_finite_length_outputs toyP wC wM (fun _ => rfl)).2
      3 5 (by omega) (by omega) (by decide)).2 (by decide) []

/-- C10: counterexample by evaluation — for a configuration whose tree is
present, the Go source aliases the root config's tree pointer to the
caller's tree, so the nodeOffset update (effective length) << 32 of line 57
is visible through the caller's Config after NewXOF returns: for the
declared size 64 the caller's tree nodeOffset has become 64 << 32 instead of
its original 0, so the caller's configuration value is changed. -/
theorem newXOF_mutates_caller_tree :
    (NewXOF toyP wCT).2.tree.map Blake2s.Tree.nodeOffset = some (64 <<< 32)
    ∧ (NewXOF toyP wCT).2 ≠ wCT := by
  constructor
  · decide
  · decide

end Blake2xs
